import Mathlib

/-!
Verification development for the hertz HTTP/1.1 chunked-transfer layer and
server lifecycle.

The chunk-size line parser, the CRLF validator and the chunked-body decoder
state machine are modelled from the specification (their production code is
not part of the visible slice; only their tests in
pkg/common/utils/chunk_test.go are), as explicit functions over byte lists:
a buffer is a list of bytes, reads consume a prefix, and running out of
bytes yields the retryable NeedMoreData condition.

The Spin / waitSignal lifecycle is embedded from pkg/app/server/hertz.go,
with the select over the signal channel and the run-error channel modelled
as a single first-arriving event, and the engine calls and log lines made
observable as a trace.
-/

namespace Hertz

/-- Modelled from the spec (section 7): the error taxonomy of the chunked
decoder. NeedMoreData is the retryable buffer-underrun signal; the other
four are fatal protocol errors. -/
inductive ChunkError where
  | NeedMoreData
  | MalformedChunkSize
  | ChunkSizeTooLarge
  | MalformedTerminator
  | MalformedTrailer
  deriving DecidableEq

/-- Whether a byte is an ASCII hexadecimal digit 0-9, a-f, A-F. -/
def isHexDigit (c : Nat) : Bool :=
  (48 ≤ c && c ≤ 57) || (97 ≤ c && c ≤ 102) || (65 ≤ c && c ≤ 70)

/-- Numeric value of an ASCII hexadecimal digit. -/
def hexVal (c : Nat) : Nat :=
  if 48 ≤ c && c ≤ 57 then c - 48
  else if 97 ≤ c && c ≤ 102 then c - 87
  else c - 55

/-- Modelled from the spec (section 4.2 step 1): read bytes one at a time,
accumulating value = value * 16 + digit with an overflow check against the
configured maximum, until a non-hexadecimal byte is met (which is left in
the buffer). Zero digits before the terminator is a malformed line; an
accumulated value exceeding maxSize is ChunkSizeTooLarge; running out of
buffered bytes is NeedMoreData. -/
def parseHexDigits (maxSize : Nat) : Nat → Nat → List Nat → Except ChunkError (Nat × List Nat)
  | _, _, [] => .error .NeedMoreData
  | acc, count, c :: rest =>
    if isHexDigit c then
      if acc * 16 + hexVal c > maxSize then .error .ChunkSizeTooLarge
      else parseHexDigits maxSize (acc * 16 + hexVal c) (count + 1) rest
    else if count = 0 then .error .MalformedChunkSize
    else .ok (acc, c :: rest)

/-- Modelled from the spec (section 4.2 step 2): while the next byte is an
ASCII space, consume and discard it. -/
def skipSpaces : List Nat → List Nat
  | [] => []
  | c :: rest => if c = 32 then skipSpaces rest else c :: rest

/-- Modelled from the spec (section 4.2 step 3): require the next two bytes
to be exactly carriage return then line feed; any other two-byte sequence is
a fatal parse error, and fewer than two buffered bytes is NeedMoreData. -/
def expectCRLFChunk : List Nat → Except ChunkError (List Nat)
  | [] => .error .NeedMoreData
  | [_] => .error .NeedMoreData
  | c1 :: c2 :: rest =>
    if c1 = 13 ∧ c2 = 10 then .ok rest else .error .MalformedChunkSize

/-- Modelled from the spec (section 4.2 steps 2-4): after the digits have
been scanned, discard trailing spaces, demand CR LF, and deliver the
decoded size with the remainder. -/
def afterDigits (v : Nat) (rest : List Nat) : Except ChunkError (Nat × List Nat) :=
  match expectCRLFChunk (skipSpaces rest) with
  | .error e => .error e
  | .ok rest2 => .ok (v, rest2)

/-- Modelled from the spec (section 4.2): the chunk-size line parser core,
composing the three steps and returning the decoded size with the unread
remainder of the buffer. -/
def parseChunkSizeE (maxSize : Nat) (input : List Nat) : Except ChunkError (Nat × List Nat) :=
  match parseHexDigits maxSize 0 0 input with
  | .error e => .error e
  | .ok (v, rest) => afterDigits v rest

/-- Modelled from the spec (section 4.2): ParseChunkSize returns the decoded
size and a nil error on success; on any failure it returns the sentinel
invalid size -1 together with a non-nil error, leaving the buffer at the
start of the line. Mirrors the Go signature (int, error), with the remaining
buffer made explicit. -/
def ParseChunkSize (maxSize : Nat) (input : List Nat) : Int × Option ChunkError × List Nat :=
  match parseChunkSizeE maxSize input with
  | .ok (v, rest) => ((v : Int), none, rest)
  | .error e => (-1, some e, input)

/-- Modelled from the spec (section 4.3): SkipCRLF reads exactly two bytes
and requires them to be carriage return then line feed; any mismatch is a
fatal MalformedTerminator error, fewer than two buffered bytes is
NeedMoreData. -/
def SkipCRLF : List Nat → Option ChunkError × List Nat
  | [] => (some .NeedMoreData, [])
  | [c] => (some .NeedMoreData, [c])
  | c1 :: c2 :: rest =>
    if c1 = 13 ∧ c2 = 10 then (none, rest)
    else (some .MalformedTerminator, c1 :: c2 :: rest)

/-- The ASCII character of a hexadecimal digit value, lowercase. -/
def hexDigitChar (v : Nat) : Nat :=
  if v < 10 then 48 + v else 87 + v

/-- Fuelled lowercase hexadecimal encoder (most significant digit first). -/
def hexEncodeAux : Nat → Nat → List Nat
  | 0, _ => []
  | f + 1, v =>
    if v < 16 then [hexDigitChar v]
    else hexEncodeAux f (v / 16) ++ [hexDigitChar (v % 16)]

/-- Lowercase hexadecimal encoding of a natural number. -/
def hexEncode (v : Nat) : List Nat := hexEncodeAux (v + 1) v

/-- Accumulated hexadecimal value of a digit string (most significant first). -/
def hexValue (ds : List Nat) : Nat :=
  ds.foldl (fun a c => a * 16 + hexVal c) 0

/-- Modelled from the spec (section 3): the states of the chunked-body
decoder state machine. -/
inductive DecState where
  | ReadingSize
  | ReadingData (remaining : Nat)
  | ReadingDataTerminator
  | ReadingTrailer
  | Done
  | Failed (e : ChunkError)
  deriving DecidableEq

/-- Modelled from the spec (section 4.4): the decoder instance: current
state, decoded payload so far, and the number of (non-empty) trailer header
lines consumed. -/
structure Decoder where
  state : DecState
  payload : List Nat
  trailers : Nat
  deriving DecidableEq

/-- The initial decoder: ReadingSize, no payload, no trailers. -/
def initDecoder : Decoder := ⟨.ReadingSize, [], 0⟩

/-- Modelled from the spec (section 4.4 ReadingTrailer): consume one trailer
line up to its CRLF, returning its length in bytes and the remainder. A
carriage return not followed by a line feed is MalformedTrailer; a buffer
with no complete line yet is NeedMoreData. -/
def readTrailerLine : List Nat → Except ChunkError (Nat × List Nat)
  | [] => .error .NeedMoreData
  | [_] => .error .NeedMoreData
  | c1 :: c2 :: rest =>
    if c1 = 13 then
      if c2 = 10 then .ok (0, rest)
      else .error .MalformedTrailer
    else
      match readTrailerLine (c2 :: rest) with
      | .error e => .error e
      | .ok (n, r) => .ok (n + 1, r)

/-- Modelled from the spec (section 4.4): one transition attempt of the
chunked-body decoder. Returns none exactly when the transition hit
NeedMoreData (or the state is terminal), in which case the caller re-enters
the same state with the same buffer once more bytes arrive; otherwise the
updated decoder and buffer. -/
def decodeStep (maxSize : Nat) (d : Decoder) (buf : List Nat) : Option (Decoder × List Nat) :=
  match d.state with
  | .ReadingSize =>
    match parseChunkSizeE maxSize buf with
    | .error e =>
      if e = .NeedMoreData then none else some ({ d with state := .Failed e }, buf)
    | .ok (v, rest) =>
      if v = 0 then some ({ d with state := .ReadingTrailer }, rest)
      else some ({ d with state := .ReadingData v }, rest)
  | .ReadingData remaining =>
    if remaining = 0 then some ({ d with state := .ReadingDataTerminator }, buf)
    else if buf.isEmpty then none
    else
      some ({ d with
                state :=
                  if min remaining buf.length = remaining then .ReadingDataTerminator
                  else .ReadingData (remaining - min remaining buf.length),
                payload := d.payload ++ buf.take (min remaining buf.length) },
            buf.drop (min remaining buf.length))
  | .ReadingDataTerminator =>
    match SkipCRLF buf with
    | (some e, _) =>
      if e = .NeedMoreData then none else some ({ d with state := .Failed e }, buf)
    | (none, rest) => some ({ d with state := .ReadingSize }, rest)
  | .ReadingTrailer =>
    match readTrailerLine buf with
    | .error e =>
      if e = .NeedMoreData then none else some ({ d with state := .Failed e }, buf)
    | .ok (n, rest) =>
      if n = 0 then some ({ d with state := .Done }, rest)
      else some ({ d with trailers := d.trailers + 1 }, rest)
  | .Done => none
  | .Failed _ => none

/-- Run the decoder for at most the given number of transitions, stopping
early at NeedMoreData or a terminal state. -/
def decodeRun (maxSize : Nat) : Nat → Decoder → List Nat → Decoder × List Nat
  | 0, d, buf => (d, buf)
  | fuel + 1, d, buf =>
    match decodeStep maxSize d buf with
    | none => (d, buf)
    | some (d2, buf2) => decodeRun maxSize fuel d2 buf2

/-- Fuel sufficient to drive any decoder to NeedMoreData or a terminal
state on a given buffer (each transition consumes a byte or strictly
approaches a terminal state). -/
def decodeFuel (buf : List Nat) : Nat := 2 * buf.length + 2

/-- Feed one batch of bytes to a decoder: run transitions until the decoder
needs more data or terminates, returning the decoder and unconsumed bytes. -/
def feedDecoder (maxSize : Nat) (d : Decoder) (buf : List Nat) : Decoder × List Nat :=
  decodeRun maxSize (decodeFuel buf) d buf

/-- Modelled from the spec (sections 2 and 4.4): the composed chunked-body
decoder, run from the initial ReadingSize state over a byte stream. -/
def ChunkedBodyDecoder (maxSize : Nat) (buf : List Nat) : Decoder × List Nat :=
  feedDecoder maxSize initDecoder buf

/-! The server lifecycle, embedded from src/pkg/app/server/hertz.go. -/

/-- The three OS signals waitSignal subscribes to via signal.Notify. -/
inductive GoSignal where
  | SIGINT
  | SIGHUP
  | SIGTERM
  deriving DecidableEq

/-- Go sig.String() for the three subscribed signals. -/
def GoSignal.string : GoSignal → String
  | .SIGINT => "interrupt"
  | .SIGHUP => "hangup"
  | .SIGTERM => "terminated"

/-- A Go error value, modelled by its message; a Go nil error is none. -/
abbrev HError := String

/-- The first event the select inside waitSignal observes: either one of the
subscribed signals arrives on the signal channel, or h.Run() returns and its
result (possibly nil) arrives on errCh. -/
inductive WaitEvent where
  | signalArrived (s : GoSignal)
  | runReturned (e : Option HError)
  deriving DecidableEq

/-- Embedded from hertz.go waitSignal: SIGTERM yields errors.New of the
signal string (force exit), SIGHUP and SIGINT yield nil (graceful
shutdown), and a value from errCh is returned as is. -/
def waitSignal : WaitEvent → Option HError
  | .signalArrived .SIGTERM => some (GoSignal.string .SIGTERM)
  | .signalArrived .SIGHUP => none
  | .signalArrived .SIGINT => none
  | .runReturned e => e

/-- Engine configuration relevant to Spin, from GetOptions(). -/
structure Options where
  ExitWaitTimeout : Nat
  deriving DecidableEq

/-- An observable call Spin makes on the engine: Engine.Close, or
Engine.Shutdown under a context carrying the given timeout. -/
inductive EngineCall where
  | close
  | shutdown (timeout : Nat)
  deriving DecidableEq

/-- An hlog line emitted by Spin. -/
inductive LogEntry where
  | errorLog (msg : String)
  | infoLog (msg : String)
  deriving DecidableEq

/-- The observable outcome of Spin: the engine calls it made and the log
lines it emitted. Spin itself returns no error (its Go return type is
void). -/
structure SpinResult where
  calls : List EngineCall
  logs : List LogEntry
  deriving DecidableEq

/-- Embedded from hertz.go Spin: on a non-nil result from waitSignal, log
the close signal, call Engine.Close and log its error if any, then return;
on a nil result, log the graceful-shutdown notice and call Shutdown under a
context whose timeout is GetOptions().ExitWaitTimeout, logging but not
propagating any Shutdown error. closeErr and shutdownErr are the results
the engine would return from those calls. -/
def Spin (opts : Options) (ev : WaitEvent) (closeErr shutdownErr : Option HError) : SpinResult :=
  match waitSignal ev with
  | some err =>
    { calls := [.close]
      logs := [.errorLog ("HERTZ: Receive close signal: error=" ++ err)] ++
        match closeErr with
        | some e => [.errorLog ("HERTZ: Close error=" ++ e)]
        | none => [] }
  | none =>
    { calls := [.shutdown opts.ExitWaitTimeout]
      logs := [.infoLog "HERTZ: Begin graceful shutdown"] ++
        match shutdownErr with
        | some e => [.errorLog ("HERTZ: Shutdown error=" ++ e)]
        | none => [] }

/-! Basic facts about the hexadecimal encoder and digit classification. -/

theorem hexEncodeAux_irrel : ∀ f g v, v < f → v < g → hexEncodeAux f v = hexEncodeAux g v := by
  intro f
  induction f with
  | zero => intro g v hvf; omega
  | succ f ih =>
    intro g v hvf hvg
    cases g with
    | zero => omega
    | succ g =>
      simp only [hexEncodeAux]
      by_cases h16 : v < 16
      · simp [h16]
      · simp only [if_neg h16]
        rw [ih g (v / 16) (by omega) (by omega)]

theorem hexEncode_eq (v : Nat) :
    hexEncode v =
      if v < 16 then [hexDigitChar v]
      else hexEncode (v / 16) ++ [hexDigitChar (v % 16)] := by
  by_cases h16 : v < 16
  · rw [if_pos h16]
    unfold hexEncode
    conv_lhs => rw [hexEncodeAux]
    rw [if_pos h16]
  · rw [if_neg h16]
    unfold hexEncode
    conv_lhs => rw [hexEncodeAux]
    rw [if_neg h16, hexEncodeAux_irrel v (v / 16 + 1) (v / 16) (by omega) (by omega)]

theorem hexEncode_ne_nil (v : Nat) : hexEncode v ≠ [] := by
  rw [hexEncode_eq]
  by_cases h16 : v < 16 <;> simp [h16]

theorem isHexDigit_hexDigitChar (v : Nat) (h : v < 16) :
    isHexDigit (hexDigitChar v) = true := by
  unfold hexDigitChar
  by_cases h10 : v < 10
  · rw [if_pos h10]
    simp only [isHexDigit, Bool.or_eq_true, Bool.and_eq_true, decide_eq_true_eq]
    omega
  · rw [if_neg h10]
    simp only [isHexDigit, Bool.or_eq_true, Bool.and_eq_true, decide_eq_true_eq]
    omega

theorem hexVal_hexDigitChar (v : Nat) (h : v < 16) : hexVal (hexDigitChar v) = v := by
  unfold hexDigitChar
  by_cases h10 : v < 10
  · rw [if_pos h10]
    unfold hexVal
    rw [if_pos (by simp only [Bool.and_eq_true, decide_eq_true_eq]; omega)]
    omega
  · rw [if_neg h10]
    unfold hexVal
    rw [if_neg (by simp only [Bool.and_eq_true, decide_eq_true_eq]; omega),
      if_pos (by simp only [Bool.and_eq_true, decide_eq_true_eq]; omega)]
    omega

/-! The hex-digit accumulation loop over an encoded value. -/

theorem parseHexDigits_encode (m v : Nat) :
    ∀ acc cnt l, acc * 16 ^ (hexEncode v).length + v ≤ m →
      parseHexDigits m acc cnt (hexEncode v ++ l) =
        parseHexDigits m (acc * 16 ^ (hexEncode v).length + v) (cnt + (hexEncode v).length) l := by
  induction v using Nat.strong_induction_on with
  | _ v ih =>
    intro acc cnt l h
    by_cases h16 : v < 16
    · rw [hexEncode_eq v, if_pos h16] at h ⊢
      simp only [List.length_cons, List.length_nil, Nat.zero_add, pow_one,
        List.singleton_append] at h ⊢
      rw [parseHexDigits, if_pos (isHexDigit_hexDigitChar v h16), hexVal_hexDigitChar v h16,
        if_neg (by omega)]
    · rw [hexEncode_eq v, if_neg h16] at h ⊢
      rw [List.append_assoc, List.singleton_append]
      have hlen : (hexEncode (v / 16) ++ [hexDigitChar (v % 16)]).length =
          (hexEncode (v / 16)).length + 1 := by simp
      rw [hlen] at h ⊢
      have hdm : v / 16 * 16 + v % 16 = v := by omega
      have hpow : acc * 16 ^ ((hexEncode (v / 16)).length + 1) + v =
          (acc * 16 ^ (hexEncode (v / 16)).length + v / 16) * 16 + v % 16 := by
        rw [pow_succ]; ring_nf; omega
      have hle : acc * 16 ^ (hexEncode (v / 16)).length + v / 16 ≤ m := by
        have h16pos : (1 : Nat) ≤ 16 ^ (hexEncode (v / 16)).length := Nat.one_le_two_pow.trans
          (Nat.pow_le_pow_left (by omega) _)
        rw [hpow] at h
        omega
      rw [ih (v / 16) (by omega) acc cnt (hexDigitChar (v % 16) :: l) hle]
      rw [parseHexDigits, if_pos (isHexDigit_hexDigitChar (v % 16) (by omega)),
        hexVal_hexDigitChar (v % 16) (by omega), if_neg (by rw [hpow] at h; omega)]
      rw [hpow]
      congr 1

theorem parse_line (m v : Nat) (r : List Nat) (h : v ≤ m) :
    parseChunkSizeE m (hexEncode v ++ 13 :: 10 :: r) = .ok (v, r) := by
  unfold parseChunkSizeE
  rw [parseHexDigits_encode m v 0 0 (13 :: 10 :: r) (by simpa using h)]
  simp only [Nat.zero_mul, Nat.zero_add]
  rw [parseHexDigits, if_neg (by decide),
    if_neg (by have := List.length_pos.mpr (hexEncode_ne_nil v); omega)]
  simp [afterDigits, skipSpaces, expectCRLFChunk]

theorem ParseChunkSize_error_eq (m : Nat) (input : List Nat) (e : ChunkError)
    (h : parseChunkSizeE m input = .error e) :
    ParseChunkSize m input = (-1, some e, input) := by
  unfold ParseChunkSize
  rw [h]

theorem ParseChunkSize_ok_eq (m : Nat) (input : List Nat) (v : Nat) (rest : List Nat)
    (h : parseChunkSizeE m input = .ok (v, rest)) :
    ParseChunkSize m input = ((v : Int), none, rest) := by
  unfold ParseChunkSize
  rw [h]

theorem parseChunkSizeE_of_parts (m : Nat) (input : List Nat) (v : Nat) (r2 rest : List Nat)
    (h1 : parseHexDigits m 0 0 input = .ok (v, r2))
    (h2 : expectCRLFChunk (skipSpaces r2) = .ok rest) :
    parseChunkSizeE m input = .ok (v, rest) := by
  unfold parseChunkSizeE
  rw [h1]
  show afterDigits v r2 = .ok (v, rest)
  unfold afterDigits
  rw [h2]

theorem parseChunkSizeE_of_digits_error (m : Nat) (input : List Nat) (e : ChunkError)
    (h1 : parseHexDigits m 0 0 input = .error e) :
    parseChunkSizeE m input = .error e := by
  unfold parseChunkSizeE
  rw [h1]

theorem ParseChunkSize_none_inv (m : Nat) (input : List Nat) (v : Int) (rest : List Nat)
    (h : ParseChunkSize m input = (v, none, rest)) :
    ∃ w : Nat, (w : Int) = v ∧ parseChunkSizeE m input = .ok (w, rest) := by
  unfold ParseChunkSize at h
  split at h
  · rename_i w r heq
    simp only [Prod.mk.injEq] at h
    exact ⟨w, h.1, by rw [heq, h.2.2]⟩
  · rename_i e heq
    simp at h

theorem parseChunkSizeE_ok_inv (m : Nat) (input : List Nat) (v : Nat) (rest : List Nat)
    (h : parseChunkSizeE m input = .ok (v, rest)) :
    ∃ r2, parseHexDigits m 0 0 input = .ok (v, r2) ∧
      expectCRLFChunk (skipSpaces r2) = .ok rest := by
  unfold parseChunkSizeE at h
  split at h
  · exact absurd h (by simp)
  · rename_i v2 r2 heq
    unfold afterDigits at h
    split at h
    · exact absurd h (by simp)
    · rename_i rest2 heq2
      injection h with h2
      simp only [Prod.mk.injEq] at h2
      obtain ⟨hv2, hrest2⟩ := h2
      subst hv2
      subst hrest2
      exact ⟨r2, heq, heq2⟩

theorem skipSpaces_cons_ne (c : Nat) (l : List Nat) (h : c ≠ 32) :
    skipSpaces (c :: l) = c :: l := by
  rw [skipSpaces, if_neg h]

theorem skipSpaces_replicate (k : Nat) (l : List Nat) :
    skipSpaces (List.replicate k 32 ++ l) = skipSpaces l := by
  induction k with
  | zero => simp
  | succ k ih =>
    rw [List.replicate_succ, List.cons_append, skipSpaces, if_pos rfl, ih]

/-- After the digits of an encoded value, the parse continues with the value
accumulated, provided the next byte is not a hex digit. -/
theorem parse_hex_then (m v c : Nat) (t : List Nat) (hv : v ≤ m)
    (hc : isHexDigit c = false) :
    parseChunkSizeE m (hexEncode v ++ c :: t) = afterDigits v (c :: t) := by
  unfold parseChunkSizeE
  rw [parseHexDigits_encode m v 0 0 (c :: t) (by simpa using hv)]
  simp only [Nat.zero_mul, Nat.zero_add]
  rw [parseHexDigits, if_neg (by simp [hc]),
    if_neg (by have := List.length_pos.mpr (hexEncode_ne_nil v); omega)]

/-- C1: for every non-negative integer v representable within the configured
maximum, applying ParseChunkSize to the lowercase hexadecimal encoding of v
followed by the two bytes CR LF returns exactly v and a nil error. -/
theorem parse_chunk_size_roundtrip (m v : Nat) (h : v ≤ m) :
    ParseChunkSize m (hexEncode v ++ [13, 10]) = ((v : Int), none, []) := by
  unfold ParseChunkSize
  rw [parse_line m v [] h]

theorem parse_chunk_size_roundtrip_witness :
    (1000 : Nat) ≤ 1048576 ∧
      ParseChunkSize 1048576 (hexEncode 1000 ++ [13, 10]) = (((1000 : Nat) : Int), none, []) :=
  ⟨by omega, parse_chunk_size_roundtrip 1048576 1000 (by omega)⟩

/-- C2: ParseChunkSize returns the sentinel size -1 together with a non-nil
error on every malformed chunk-size line: when zero hexadecimal digits were
consumed before the terminator, and when the two terminator bytes after the
digits (and any run of spaces) are not exactly CR followed by LF — in
particular the reversed sequence LF CR fails. -/
theorem parse_chunk_size_malformed (m : Nat) :
    (∀ c l, isHexDigit c = false →
      ParseChunkSize m (c :: l) = (-1, some ChunkError.MalformedChunkSize, c :: l)) ∧
    (∀ v n c1 c2 l, v ≤ m → isHexDigit c1 = false → c1 ≠ 32 → ¬(c1 = 13 ∧ c2 = 10) →
      ParseChunkSize m (hexEncode v ++ List.replicate n 32 ++ c1 :: c2 :: l) =
        (-1, some ChunkError.MalformedChunkSize,
          hexEncode v ++ List.replicate n 32 ++ c1 :: c2 :: l)) := by
  constructor
  · intro c l hc
    apply ParseChunkSize_error_eq
    unfold parseChunkSizeE
    rw [parseHexDigits, if_neg (by simp [hc]), if_pos rfl]
  · intro v n c1 c2 l hv hc1 hc1s hcrlf
    apply ParseChunkSize_error_eq
    rw [List.append_assoc]
    cases n with
    | zero =>
      simp only [List.replicate, List.nil_append]
      rw [parse_hex_then m v c1 (c2 :: l) hv hc1]
      unfold afterDigits
      rw [skipSpaces_cons_ne c1 (c2 :: l) hc1s, expectCRLFChunk, if_neg hcrlf]
    | succ k =>
      simp only [List.replicate_succ, List.cons_append]
      rw [parse_hex_then m v 32 _ hv (by decide)]
      unfold afterDigits
      rw [skipSpaces, if_pos rfl, skipSpaces_replicate,
        skipSpaces_cons_ne c1 (c2 :: l) hc1s, expectCRLFChunk, if_neg hcrlf]

theorem parse_chunk_size_malformed_witness :
    ParseChunkSize 100 (hexEncode 0 ++ List.replicate 0 32 ++ 10 :: 13 :: []) =
      (-1, some ChunkError.MalformedChunkSize,
        hexEncode 0 ++ List.replicate 0 32 ++ 10 :: 13 :: []) :=
  (parse_chunk_size_malformed 100).2 0 0 10 13 [] (by omega) (by decide) (by decide) (by decide)

/-- C6: SkipCRLF consumes exactly two bytes and returns a nil error exactly
when the first byte is CR and the second is LF; any other two-byte sequence
(including the wrong-order LF CR) yields a non-nil error. -/
theorem skip_crlf_two_bytes (c1 c2 : Nat) (rest : List Nat) :
    (SkipCRLF (c1 :: c2 :: rest) = (none, rest) ↔ (c1 = 13 ∧ c2 = 10)) ∧
    (¬(c1 = 13 ∧ c2 = 10) →
      SkipCRLF (c1 :: c2 :: rest) = (some ChunkError.MalformedTerminator, c1 :: c2 :: rest)) := by
  constructor
  · constructor
    · intro h
      by_contra hc
      rw [SkipCRLF, if_neg hc] at h
      simp at h
    · intro h
      rw [SkipCRLF, if_pos h]
  · intro h
    rw [SkipCRLF, if_neg h]

theorem skip_crlf_two_bytes_witness :
    SkipCRLF [10, 13] = (some ChunkError.MalformedTerminator, [10, 13]) :=
  (skip_crlf_two_bytes 10 13 []).2 (by decide)

/-- A successful hex-digit scan is insensitive to what follows the first
non-hex byte: the same value results, and exactly the digits are consumed. -/
theorem parseHexDigits_swap (m : Nat) :
    ∀ ds acc cnt c l c' l' v0 r0, (∀ x ∈ ds, isHexDigit x = true) →
      isHexDigit c = false → isHexDigit c' = false →
      parseHexDigits m acc cnt (ds ++ c :: l) = .ok (v0, r0) →
      r0 = c :: l ∧ parseHexDigits m acc cnt (ds ++ c' :: l') = .ok (v0, c' :: l') := by
  intro ds
  induction ds with
  | nil =>
    intro acc cnt c l c' l' v0 r0 hall hc hc' hok
    rw [List.nil_append, parseHexDigits, if_neg (by simp [hc])] at hok
    by_cases hcnt : cnt = 0
    · rw [if_pos hcnt] at hok
      exact absurd hok (by simp)
    · rw [if_neg hcnt] at hok
      injection hok with hok2
      simp only [Prod.mk.injEq] at hok2
      obtain ⟨hv0, hr0⟩ := hok2
      subst hv0
      subst hr0
      refine ⟨rfl, ?_⟩
      rw [List.nil_append, parseHexDigits, if_neg (by simp [hc']), if_neg hcnt]
  | cons d ds ih =>
    intro acc cnt c l c' l' v0 r0 hall hc hc' hok
    have hd : isHexDigit d = true := hall d (by simp)
    rw [List.cons_append, parseHexDigits, if_pos hd] at hok
    by_cases hbig : acc * 16 + hexVal d > m
    · rw [if_pos hbig] at hok
      exact absurd hok (by simp)
    · rw [if_neg hbig] at hok
      have hrec := ih (acc * 16 + hexVal d) (cnt + 1) c l c' l' v0 r0
        (fun x hx => hall x (by simp [hx])) hc hc' hok
      refine ⟨hrec.1, ?_⟩
      rw [List.cons_append, parseHexDigits, if_pos hd, if_neg hbig]
      exact hrec.2

/-- C5: for every valid chunk-size line, inserting any run of ASCII spaces
between the last hexadecimal digit and the terminating CR LF leaves the
parsed value and the nil error unchanged. -/
theorem parse_chunk_size_spaces (m : Nat) (ds : List Nat) (n : Nat) (v : Int)
    (hall : ∀ x ∈ ds, isHexDigit x = true)
    (h : ParseChunkSize m (ds ++ [13, 10]) = (v, none, [])) :
    ParseChunkSize m (ds ++ List.replicate n 32 ++ [13, 10]) = (v, none, []) := by
  cases n with
  | zero => simpa using h
  | succ k =>
    obtain ⟨w, hw, hpe⟩ := ParseChunkSize_none_inv m (ds ++ [13, 10]) v [] h
    obtain ⟨r2, hph, -⟩ := parseChunkSizeE_ok_inv m (ds ++ [13, 10]) w [] hpe
    have hswap := parseHexDigits_swap m ds 0 0 13 [10] 32
      (List.replicate k 32 ++ [13, 10]) w r2 hall (by decide) (by decide) hph
    rw [List.append_assoc, List.replicate_succ, List.cons_append, ← hw]
    apply ParseChunkSize_ok_eq
    apply parseChunkSizeE_of_parts m _ w (32 :: (List.replicate k 32 ++ [13, 10])) []
      hswap.2
    rw [skipSpaces, if_pos rfl, skipSpaces_replicate,
      skipSpaces_cons_ne 13 [10] (by decide), expectCRLFChunk, if_pos (by decide)]

theorem parse_chunk_size_spaces_witness :
    ParseChunkSize 100 ([48] ++ List.replicate 7 32 ++ [13, 10]) = (0, none, []) :=
  parse_chunk_size_spaces 100 [48] 7 0 (by decide) (by decide)

/-- A hex-digit run whose accumulated value ever exceeds the maximum makes
the scan fail with ChunkSizeTooLarge, whatever follows. -/
theorem parseHexDigits_too_large (m : Nat) :
    ∀ ds acc cnt l, (∀ x ∈ ds, isHexDigit x = true) → acc ≤ m →
      List.foldl (fun a c => a * 16 + hexVal c) acc ds > m →
      parseHexDigits m acc cnt (ds ++ l) = .error .ChunkSizeTooLarge := by
  intro ds
  induction ds with
  | nil =>
    intro acc cnt l hall hacc hbig
    simp at hbig
    omega
  | cons d ds ih =>
    intro acc cnt l hall hacc hbig
    have hd : isHexDigit d = true := hall d (by simp)
    rw [List.cons_append, parseHexDigits, if_pos hd]
    by_cases hover : acc * 16 + hexVal d > m
    · rw [if_pos hover]
    · rw [if_neg hover]
      exact ih (acc * 16 + hexVal d) (cnt + 1) l (fun x hx => hall x (by simp [hx]))
        (by omega) (by simpa using hbig)

/-- A successful hex-digit scan never returns a value above the maximum. -/
theorem parseHexDigits_le (m : Nat) :
    ∀ input acc cnt v r, acc ≤ m →
      parseHexDigits m acc cnt input = .ok (v, r) → v ≤ m := by
  intro input
  induction input with
  | nil =>
    intro acc cnt v r hacc h
    rw [parseHexDigits] at h
    exact absurd h (by simp)
  | cons c rest ih =>
    intro acc cnt v r hacc h
    rw [parseHexDigits] at h
    by_cases hc : isHexDigit c = true
    · rw [if_pos hc] at h
      by_cases hover : acc * 16 + hexVal c > m
      · rw [if_pos hover] at h
        exact absurd h (by simp)
      · rw [if_neg hover] at h
        exact ih _ _ v r (by omega) h
    · rw [if_neg hc] at h
      by_cases hcnt : cnt = 0
      · rw [if_pos hcnt] at h
        exact absurd h (by simp)
      · rw [if_neg hcnt] at h
        injection h with h2
        simp only [Prod.mk.injEq] at h2
        omega

/-- C7: a hex-digit run decoding to a value beyond the configured maximum
makes ParseChunkSize fail with ChunkSizeTooLarge (the check fires during
accumulation, before the rest of the line is even looked at), and no
successful parse ever returns a value above the maximum — the accumulator is
range-checked instead of wrapping. -/
theorem parse_chunk_size_overflow_guard (m : Nat) :
    (∀ ds l, (∀ x ∈ ds, isHexDigit x = true) → hexValue ds > m →
      ParseChunkSize m (ds ++ l) = (-1, some ChunkError.ChunkSizeTooLarge, ds ++ l)) ∧
    (∀ input w e r, ParseChunkSize m input = (w, e, r) → e = none → w ≤ (m : Int)) := by
  constructor
  · intro ds l hall hbig
    apply ParseChunkSize_error_eq
    unfold parseChunkSizeE
    rw [parseHexDigits_too_large m ds 0 0 l hall (by omega) (by simpa [hexValue] using hbig)]
  · intro input w e r h he
    subst he
    obtain ⟨w2, hw, hpe⟩ := ParseChunkSize_none_inv m input w r h
    obtain ⟨r2, hph, -⟩ := parseChunkSizeE_ok_inv m input w2 r hpe
    have hle := parseHexDigits_le m input 0 0 w2 r2 (by omega) hph
    rw [← hw]
    exact_mod_cast hle

theorem parse_chunk_size_overflow_guard_witness :
    ParseChunkSize 15 ([49, 48] ++ []) =
      (-1, some ChunkError.ChunkSizeTooLarge, [49, 48] ++ []) :=
  (parse_chunk_size_overflow_guard 15).1 [49, 48] [] (by decide) (by decide)

/-! Infrastructure for the decoder state machine: a termination measure,
fuel irrelevance of decodeRun, and the behaviour of every parsing
component under buffer extension. -/

/-- Rank of a state in the decoder termination measure: terminal states are
0, byte-consuming states 1, and the data state 2 (it may take one silent
transition before consuming). -/
def stateRank : DecState → Nat
  | .Done => 0
  | .Failed _ => 0
  | .ReadingSize => 1
  | .ReadingDataTerminator => 1
  | .ReadingTrailer => 1
  | .ReadingData _ => 2

/-- Termination measure of a decoder configuration: every successful
transition strictly decreases it. -/
def decMeasure (d : Decoder) (buf : List Nat) : Nat := 2 * buf.length + stateRank d.state

theorem stateRank_le (st : DecState) : stateRank st ≤ 2 := by
  cases st <;> simp [stateRank]

theorem stateRank_zero_step (m : Nat) (d : Decoder) (buf : List Nat)
    (h : stateRank d.state = 0) : decodeStep m d buf = none := by
  rcases d with ⟨st, pl, tr⟩
  cases st with
  | Done => simp [decodeStep]
  | Failed e => simp [decodeStep]
  | ReadingSize => simp [stateRank] at h
  | ReadingData r => simp [stateRank] at h
  | ReadingDataTerminator => simp [stateRank] at h
  | ReadingTrailer => simp [stateRank] at h

theorem decodeRun_of_none (m : Nat) (d : Decoder) (buf : List Nat)
    (h : decodeStep m d buf = none) : ∀ f, decodeRun m f d buf = (d, buf) := by
  intro f
  cases f with
  | zero => rfl
  | succ f => rw [decodeRun, h]

/-- A successful digit scan consumes bytes: never grows the buffer, and
consumes at least one byte when it starts with an empty digit count. -/
theorem parseHexDigits_consumes (m : Nat) :
    ∀ input acc cnt v r, parseHexDigits m acc cnt input = .ok (v, r) →
      r.length ≤ input.length ∧ (cnt = 0 → r.length < input.length) := by
  intro input
  induction input with
  | nil =>
    intro acc cnt v r h
    exact absurd h (by simp [parseHexDigits])
  | cons c t ih =>
    intro acc cnt v r h
    rw [parseHexDigits] at h
    by_cases hc : isHexDigit c = true
    · rw [if_pos hc] at h
      by_cases hover : acc * 16 + hexVal c > m
      · rw [if_pos hover] at h
        exact absurd h (by simp)
      · rw [if_neg hover] at h
        have := (ih _ _ v r h).1
        constructor
        · simp only [List.length_cons]
          omega
        · intro hcnt
          simp only [List.length_cons]
          omega
    · rw [if_neg hc] at h
      by_cases hcnt : cnt = 0
      · rw [if_pos hcnt] at h
        exact absurd h (by simp)
      · rw [if_neg hcnt] at h
        injection h with h2
        simp only [Prod.mk.injEq] at h2
        obtain ⟨-, hr⟩ := h2
        subst hr
        exact ⟨le_refl _, fun hcnt0 => absurd hcnt0 hcnt⟩

theorem skipSpaces_length (l : List Nat) : (skipSpaces l).length ≤ l.length := by
  induction l with
  | nil => simp [skipSpaces]
  | cons c t ih =>
    rw [skipSpaces]
    by_cases hc : c = 32
    · rw [if_pos hc]
      simp only [List.length_cons]
      omega
    · rw [if_neg hc]

theorem expectCRLFChunk_ok_inv : ∀ l rest, expectCRLFChunk l = .ok rest →
    l = 13 :: 10 :: rest := by
  intro l rest h
  match l with
  | [] => exact absurd h (by simp [expectCRLFChunk])
  | [c] => exact absurd h (by simp [expectCRLFChunk])
  | c1 :: c2 :: t =>
    rw [expectCRLFChunk] at h
    by_cases hc : c1 = 13 ∧ c2 = 10
    · rw [if_pos hc] at h
      injection h with h2
      rw [hc.1, hc.2, h2]
    · rw [if_neg hc] at h
      exact absurd h (by simp)

theorem expectCRLFChunk_error_inv : ∀ l e, expectCRLFChunk l = .error e →
    e ≠ .NeedMoreData →
    ∃ c1 c2 t, l = c1 :: c2 :: t ∧ ¬(c1 = 13 ∧ c2 = 10) ∧ e = .MalformedChunkSize := by
  intro l e h hne
  match l with
  | [] =>
    rw [expectCRLFChunk] at h
    injection h with h2
    exact absurd h2.symm hne
  | [c] =>
    rw [expectCRLFChunk] at h
    injection h with h2
    exact absurd h2.symm hne
  | c1 :: c2 :: t =>
    rw [expectCRLFChunk] at h
    by_cases hc : c1 = 13 ∧ c2 = 10
    · rw [if_pos hc] at h
      exact absurd h (by simp)
    · rw [if_neg hc] at h
      injection h with h2
      exact ⟨c1, c2, t, rfl, hc, h2.symm⟩

theorem parseChunkSizeE_consumes (m : Nat) (input : List Nat) (v : Nat) (rest : List Nat)
    (h : parseChunkSizeE m input = .ok (v, rest)) : rest.length + 3 ≤ input.length := by
  obtain ⟨r2, hph, hcr⟩ := parseChunkSizeE_ok_inv m input v rest h
  have h1 := parseHexDigits_consumes m input 0 0 v r2 hph
  have h2 := skipSpaces_length r2
  have h3 := expectCRLFChunk_ok_inv _ _ hcr
  have h4 : (skipSpaces r2).length = rest.length + 2 := by
    rw [h3]
    simp
  have h5 := h1.2 rfl
  omega

theorem SkipCRLF_ok_inv : ∀ buf rest, SkipCRLF buf = (none, rest) → buf = 13 :: 10 :: rest := by
  intro buf rest h
  match buf with
  | [] => exact absurd h (by simp [SkipCRLF])
  | [c] => exact absurd h (by simp [SkipCRLF])
  | c1 :: c2 :: t =>
    rw [SkipCRLF] at h
    by_cases hc : c1 = 13 ∧ c2 = 10
    · rw [if_pos hc] at h
      simp only [Prod.mk.injEq] at h
      rw [hc.1, hc.2, h.2]
    · rw [if_neg hc] at h
      exact absurd h (by simp)

theorem SkipCRLF_error_inv : ∀ buf e r, SkipCRLF buf = (some e, r) → e ≠ .NeedMoreData →
    ∃ c1 c2 t, buf = c1 :: c2 :: t ∧ r = buf ∧ ¬(c1 = 13 ∧ c2 = 10) ∧
      e = .MalformedTerminator := by
  intro buf e r h hne
  match buf with
  | [] =>
    rw [SkipCRLF] at h
    simp only [Prod.mk.injEq, Option.some.injEq] at h
    exact absurd h.1.symm hne
  | [c] =>
    rw [SkipCRLF] at h
    simp only [Prod.mk.injEq, Option.some.injEq] at h
    exact absurd h.1.symm hne
  | c1 :: c2 :: t =>
    rw [SkipCRLF] at h
    by_cases hc : c1 = 13 ∧ c2 = 10
    · rw [if_pos hc] at h
      exact absurd h (by simp)
    · rw [if_neg hc] at h
      simp only [Prod.mk.injEq, Option.some.injEq] at h
      exact ⟨c1, c2, t, rfl, h.2.symm, hc, h.1.symm⟩

theorem readTrailerLine_consumes :
    ∀ buf n r, readTrailerLine buf = .ok (n, r) → r.length + 2 ≤ buf.length := by
  intro buf
  induction buf with
  | nil =>
    intro n r h
    exact absurd h (by simp [readTrailerLine])
  | cons c1 t ih =>
    intro n r h
    match t with
    | [] => exact absurd h (by simp [readTrailerLine])
    | c2 :: rest =>
      rw [readTrailerLine] at h
      by_cases hc1 : c1 = 13
      · rw [if_pos hc1] at h
        by_cases hc2 : c2 = 10
        · rw [if_pos hc2] at h
          injection h with h2
          simp only [Prod.mk.injEq] at h2
          obtain ⟨-, hr⟩ := h2
          subst hr
          simp
        · rw [if_neg hc2] at h
          exact absurd h (by simp)
      · rw [if_neg hc1] at h
        cases hrec : readTrailerLine (c2 :: rest) with
        | error e =>
          rw [hrec] at h
          exact absurd h (by simp)
        | ok p =>
          rw [hrec] at h
          obtain ⟨n2, r2⟩ := p
          injection h with h2
          simp only [Prod.mk.injEq] at h2
          obtain ⟨-, hr⟩ := h2
          subst hr
          have := ih n2 r2 hrec
          simp only [List.length_cons] at this ⊢
          omega

/-- Every successful decoder transition strictly decreases the measure. -/
theorem decodeStep_measure (m : Nat) (d d2 : Decoder) (buf buf2 : List Nat)
    (h : decodeStep m d buf = some (d2, buf2)) :
    decMeasure d2 buf2 < decMeasure d buf := by
  rcases d with ⟨st, pl, tr⟩
  cases st with
  | ReadingSize =>
    simp only [decodeStep] at h
    split at h
    · rename_i e heq
      split at h
      · exact absurd h (by simp)
      · simp only [Option.some.injEq, Prod.mk.injEq] at h
        obtain ⟨hd, hb⟩ := h
        subst hd
        subst hb
        simp only [decMeasure, stateRank]
        omega
    · rename_i v rest heq
      have hcons := parseChunkSizeE_consumes m buf v rest heq
      split at h <;>
      · simp only [Option.some.injEq, Prod.mk.injEq] at h
        obtain ⟨hd, hb⟩ := h
        subst hd
        subst hb
        simp only [decMeasure, stateRank]
        omega
  | ReadingData r =>
    simp only [decodeStep] at h
    split at h
    · simp only [Option.some.injEq, Prod.mk.injEq] at h
      obtain ⟨hd, hb⟩ := h
      subst hd
      subst hb
      simp only [decMeasure, stateRank]
      omega
    · split at h
      · exact absurd h (by simp)
      · rename_i hr0 hne
        simp only [Option.some.injEq, Prod.mk.injEq] at h
        obtain ⟨hd, hb⟩ := h
        subst hd
        subst hb
        have hbne : 1 ≤ buf.length := by
          cases buf
          · simp at hne
          · simp
        have hminle : min r buf.length ≤ buf.length := Nat.min_le_right r buf.length
        have hminge : 1 ≤ min r buf.length := le_min (by omega) hbne
        generalize hx : min r buf.length = x
        rw [hx] at hminle hminge
        have hrank := stateRank_le
          (if x = r then DecState.ReadingDataTerminator else DecState.ReadingData (r - x))
        have hsr : stateRank (DecState.ReadingData r) = 2 := rfl
        simp only [decMeasure, List.length_drop]
        omega
  | ReadingDataTerminator =>
    simp only [decodeStep] at h
    split at h
    · rename_i e r9 heq
      split at h
      · exact absurd h (by simp)
      · simp only [Option.some.injEq, Prod.mk.injEq] at h
        obtain ⟨hd, hb⟩ := h
        subst hd
        subst hb
        simp only [decMeasure, stateRank]
        omega
    · rename_i rest heq
      simp only [Option.some.injEq, Prod.mk.injEq] at h
      obtain ⟨hd, hb⟩ := h
      subst hd
      subst hb
      have hbuf := SkipCRLF_ok_inv buf rest heq
      subst hbuf
      simp only [decMeasure, stateRank, List.length_cons]
      omega
  | ReadingTrailer =>
    simp only [decodeStep] at h
    split at h
    · rename_i e heq
      split at h
      · exact absurd h (by simp)
      · simp only [Option.some.injEq, Prod.mk.injEq] at h
        obtain ⟨hd, hb⟩ := h
        subst hd
        subst hb
        simp only [decMeasure, stateRank]
        omega
    · rename_i n rest heq
      have hcons := readTrailerLine_consumes buf n rest heq
      split at h <;>
      · simp only [Option.some.injEq, Prod.mk.injEq] at h
        obtain ⟨hd, hb⟩ := h
        subst hd
        subst hb
        simp only [decMeasure, stateRank]
        omega
  | Done => simp [decodeStep] at h
  | Failed e => simp [decodeStep] at h

/-- With fuel at least the measure, the run ends in a configuration on which
the decoder cannot step (NeedMoreData or terminal). -/
theorem decodeRun_stuck (m : Nat) :
    ∀ f d buf, decMeasure d buf ≤ f →
      decodeStep m (decodeRun m f d buf).1 (decodeRun m f d buf).2 = none := by
  intro f
  induction f with
  | zero =>
    intro d buf hm
    have h0 : stateRank d.state = 0 := by
      have := stateRank_le d.state
      simp only [decMeasure] at hm
      omega
    simpa using stateRank_zero_step m d buf h0
  | succ f ih =>
    intro d buf hm
    cases hstep : decodeStep m d buf with
    | none =>
      rw [decodeRun, hstep]
      simpa using hstep
    | some p =>
      obtain ⟨d2, buf2⟩ := p
      rw [decodeRun, hstep]
      have := decodeStep_measure m d d2 buf buf2 hstep
      exact ih d2 buf2 (by omega)

/-- decodeRun does not depend on the exact fuel once it covers the measure. -/
theorem decodeRun_fuel (m : Nat) :
    ∀ f g d buf, decMeasure d buf ≤ f → decMeasure d buf ≤ g →
      decodeRun m f d buf = decodeRun m g d buf := by
  intro f
  induction f with
  | zero =>
    intro g d buf hf hg
    have h0 : stateRank d.state = 0 := by
      have := stateRank_le d.state
      simp only [decMeasure] at hf
      omega
    rw [decodeRun_of_none m d buf (stateRank_zero_step m d buf h0) g]
    rfl
  | succ f ih =>
    intro g d buf hf hg
    cases hstep : decodeStep m d buf with
    | none => rw [decodeRun_of_none m d buf hstep, decodeRun_of_none m d buf hstep]
    | some p =>
      obtain ⟨d2, buf2⟩ := p
      have hlt := decodeStep_measure m d d2 buf buf2 hstep
      cases g with
      | zero => omega
      | succ g =>
        rw [decodeRun, decodeRun, hstep]
        exact ih g d2 buf2 (by omega) (by omega)

theorem decMeasure_le_fuel (d : Decoder) (buf : List Nat) :
    decMeasure d buf ≤ decodeFuel buf := by
  have := stateRank_le d.state
  simp only [decMeasure, decodeFuel]
  omega

theorem feedDecoder_eq_run (m : Nat) (d : Decoder) (buf : List Nat) (f : Nat)
    (hf : decMeasure d buf ≤ f) : feedDecoder m d buf = decodeRun m f d buf := by
  unfold feedDecoder
  exact decodeRun_fuel m (decodeFuel buf) f d buf (decMeasure_le_fuel d buf) hf

theorem feedDecoder_of_none (m : Nat) (d : Decoder) (buf : List Nat)
    (h : decodeStep m d buf = none) : feedDecoder m d buf = (d, buf) :=
  decodeRun_of_none m d buf h (decodeFuel buf)

theorem feedDecoder_stuck (m : Nat) (d : Decoder) (buf : List Nat) :
    decodeStep m (feedDecoder m d buf).1 (feedDecoder m d buf).2 = none :=
  decodeRun_stuck m (decodeFuel buf) d buf (decMeasure_le_fuel d buf)

/-- One successful transition can be peeled off the front of a feed. -/
theorem feedDecoder_step (m : Nat) (d d2 : Decoder) (buf buf2 : List Nat)
    (h : decodeStep m d buf = some (d2, buf2)) :
    feedDecoder m d buf = feedDecoder m d2 buf2 := by
  have hlt := decodeStep_measure m d d2 buf buf2 h
  cases hmu : decMeasure d buf with
  | zero =>
    rw [hmu] at hlt
    omega
  | succ k =>
    rw [feedDecoder_eq_run m d buf (k + 1) (by omega), decodeRun, h]
    exact (feedDecoder_eq_run m d2 buf2 k (by omega)).symm

/-! Behaviour of the parsing components when more bytes are appended to the
buffer: successful results and fatal errors are stable; only NeedMoreData
outcomes can change. -/

theorem parseHexDigits_append_ok (m : Nat) :
    ∀ input acc cnt v r ext, parseHexDigits m acc cnt input = .ok (v, r) →
      parseHexDigits m acc cnt (input ++ ext) = .ok (v, r ++ ext) := by
  intro input
  induction input with
  | nil =>
    intro acc cnt v r ext h
    exact absurd h (by simp [parseHexDigits])
  | cons c t ih =>
    intro acc cnt v r ext h
    rw [parseHexDigits] at h
    rw [List.cons_append, parseHexDigits]
    by_cases hc : isHexDigit c = true
    · rw [if_pos hc] at h ⊢
      by_cases hover : acc * 16 + hexVal c > m
      · rw [if_pos hover] at h
        exact absurd h (by simp)
      · rw [if_neg hover] at h ⊢
        exact ih _ _ v r ext h
    · rw [if_neg hc] at h ⊢
      by_cases hcnt : cnt = 0
      · rw [if_pos hcnt] at h
        exact absurd h (by simp)
      · rw [if_neg hcnt] at h ⊢
        injection h with h2
        simp only [Prod.mk.injEq] at h2
        obtain ⟨hv, hr⟩ := h2
        subst hv
        subst hr
        rw [List.cons_append]

theorem parseHexDigits_append_error (m : Nat) :
    ∀ input acc cnt e ext, parseHexDigits m acc cnt input = .error e → e ≠ .NeedMoreData →
      parseHexDigits m acc cnt (input ++ ext) = .error e := by
  intro input
  induction input with
  | nil =>
    intro acc cnt e ext h hne
    rw [parseHexDigits] at h
    injection h with h2
    exact absurd h2.symm hne
  | cons c t ih =>
    intro acc cnt e ext h hne
    rw [parseHexDigits] at h
    rw [List.cons_append, parseHexDigits]
    by_cases hc : isHexDigit c = true
    · rw [if_pos hc] at h ⊢
      by_cases hover : acc * 16 + hexVal c > m
      · rw [if_pos hover] at h ⊢
        exact h
      · rw [if_neg hover] at h ⊢
        exact ih _ _ e ext h hne
    · rw [if_neg hc] at h ⊢
      by_cases hcnt : cnt = 0
      · rw [if_pos hcnt] at h ⊢
        exact h
      · rw [if_neg hcnt] at h
        exact absurd h (by simp)

theorem skipSpaces_append_cons :
    ∀ buf c t ext, skipSpaces buf = c :: t → skipSpaces (buf ++ ext) = c :: (t ++ ext) := by
  intro buf
  induction buf with
  | nil =>
    intro c t ext h
    simp [skipSpaces] at h
  | cons b bs ih =>
    intro c t ext h
    rw [skipSpaces] at h
    rw [List.cons_append, skipSpaces]
    by_cases hb : b = 32
    · rw [if_pos hb] at h ⊢
      exact ih c t ext h
    · rw [if_neg hb] at h ⊢
      injection h with h1 h2
      rw [h1, h2]

theorem parseChunkSizeE_error_inv (m : Nat) (input : List Nat) (e : ChunkError)
    (h : parseChunkSizeE m input = .error e) :
    parseHexDigits m 0 0 input = .error e ∨
      ∃ v r2, parseHexDigits m 0 0 input = .ok (v, r2) ∧
        expectCRLFChunk (skipSpaces r2) = .error e := by
  unfold parseChunkSizeE at h
  split at h
  · rename_i e2 heq
    injection h with h2
    subst h2
    exact Or.inl heq
  · rename_i v r2 heq
    unfold afterDigits at h
    split at h
    · rename_i e2 heq2
      injection h with h2
      subst h2
      exact Or.inr ⟨v, r2, heq, heq2⟩
    · exact absurd h (by simp)

theorem parseChunkSizeE_append_ok (m : Nat) (input : List Nat) (v : Nat) (rest ext : List Nat)
    (h : parseChunkSizeE m input = .ok (v, rest)) :
    parseChunkSizeE m (input ++ ext) = .ok (v, rest ++ ext) := by
  obtain ⟨r2, hph, hcr⟩ := parseChunkSizeE_ok_inv m input v rest h
  apply parseChunkSizeE_of_parts m (input ++ ext) v (r2 ++ ext) (rest ++ ext)
    (parseHexDigits_append_ok m input 0 0 v r2 ext hph)
  have hss := expectCRLFChunk_ok_inv _ _ hcr
  rw [skipSpaces_append_cons r2 13 (10 :: rest) ext hss, List.cons_append, expectCRLFChunk,
    if_pos ⟨rfl, rfl⟩]

theorem parseChunkSizeE_append_error (m : Nat) (input : List Nat) (e : ChunkError)
    (ext : List Nat) (h : parseChunkSizeE m input = .error e) (hne : e ≠ .NeedMoreData) :
    parseChunkSizeE m (input ++ ext) = .error e := by
  rcases parseChunkSizeE_error_inv m input e h with hph | ⟨v, r2, hph, hcr⟩
  · exact parseChunkSizeE_of_digits_error m (input ++ ext) e
      (parseHexDigits_append_error m input 0 0 e ext hph hne)
  · obtain ⟨c1, c2, t, hss, hcc, he⟩ := expectCRLFChunk_error_inv _ _ hcr hne
    subst he
    unfold parseChunkSizeE
    rw [parseHexDigits_append_ok m input 0 0 v r2 ext hph]
    show afterDigits v (r2 ++ ext) = .error .MalformedChunkSize
    unfold afterDigits
    rw [skipSpaces_append_cons r2 c1 (c2 :: t) ext hss, List.cons_append, expectCRLFChunk,
      if_neg hcc]

theorem readTrailerLine_append_ok :
    ∀ buf n r ext, readTrailerLine buf = .ok (n, r) →
      readTrailerLine (buf ++ ext) = .ok (n, r ++ ext) := by
  intro buf
  induction buf with
  | nil =>
    intro n r ext h
    exact absurd h (by simp [readTrailerLine])
  | cons c1 t ih =>
    intro n r ext h
    match t with
    | [] => exact absurd h (by simp [readTrailerLine])
    | c2 :: rest =>
      rw [readTrailerLine] at h
      rw [List.cons_append, List.cons_append, readTrailerLine]
      by_cases hc1 : c1 = 13
      · rw [if_pos hc1] at h ⊢
        by_cases hc2 : c2 = 10
        · rw [if_pos hc2] at h ⊢
          injection h with h2
          simp only [Prod.mk.injEq] at h2
          obtain ⟨hn, hr⟩ := h2
          subst hn
          subst hr
          rfl
        · rw [if_neg hc2] at h
          exact absurd h (by simp)
      · rw [if_neg hc1] at h ⊢
        cases hrec : readTrailerLine (c2 :: rest) with
        | error e =>
          rw [hrec] at h
          exact absurd h (by simp)
        | ok p =>
          obtain ⟨n2, r2⟩ := p
          rw [hrec] at h
          injection h with h2
          simp only [Prod.mk.injEq] at h2
          obtain ⟨hn, hr⟩ := h2
          subst hn
          subst hr
          have hih := ih n2 r2 ext hrec
          rw [List.cons_append] at hih
          rw [hih]

theorem readTrailerLine_append_error :
    ∀ buf e ext, readTrailerLine buf = .error e → e ≠ .NeedMoreData →
      readTrailerLine (buf ++ ext) = .error e := by
  intro buf
  induction buf with
  | nil =>
    intro e ext h hne
    rw [readTrailerLine] at h
    injection h with h2
    exact absurd h2.symm hne
  | cons c1 t ih =>
    intro e ext h hne
    match t with
    | [] =>
      rw [readTrailerLine] at h
      injection h with h2
      exact absurd h2.symm hne
    | c2 :: rest =>
      rw [readTrailerLine] at h
      rw [List.cons_append, List.cons_append, readTrailerLine]
      by_cases hc1 : c1 = 13
      · rw [if_pos hc1] at h ⊢
        by_cases hc2 : c2 = 10
        · rw [if_pos hc2] at h
          exact absurd h (by simp)
        · rw [if_neg hc2] at h ⊢
          exact h
      · rw [if_neg hc1] at h ⊢
        cases hrec : readTrailerLine (c2 :: rest) with
        | error e2 =>
          rw [hrec] at h
          injection h with h2
          subst h2
          have hih := ih e2 ext hrec hne
          rw [List.cons_append] at hih
          rw [hih]
        | ok p =>
          obtain ⟨n2, r2⟩ := p
          rw [hrec] at h
          exact absurd h (by simp)

/-! Pointwise computation lemmas for decodeStep on each state. -/

theorem decodeStep_size_error (m : Nat) (pl : List Nat) (tr : Nat) (buf : List Nat)
    (e : ChunkError) (he : parseChunkSizeE m buf = .error e) (hne : e ≠ .NeedMoreData) :
    decodeStep m ⟨.ReadingSize, pl, tr⟩ buf = some (⟨.Failed e, pl, tr⟩, buf) := by
  simp only [decodeStep, he, if_neg hne]

theorem decodeStep_size_ok (m : Nat) (pl : List Nat) (tr : Nat) (buf : List Nat)
    (v : Nat) (rest : List Nat) (he : parseChunkSizeE m buf = .ok (v, rest)) :
    decodeStep m ⟨.ReadingSize, pl, tr⟩ buf =
      if v = 0 then some (⟨.ReadingTrailer, pl, tr⟩, rest)
      else some (⟨.ReadingData v, pl, tr⟩, rest) := by
  simp only [decodeStep, he]

theorem decodeStep_data_zero (m : Nat) (pl : List Nat) (tr : Nat) (buf : List Nat) :
    decodeStep m ⟨.ReadingData 0, pl, tr⟩ buf =
      some (⟨.ReadingDataTerminator, pl, tr⟩, buf) := by
  simp [decodeStep]

theorem decodeStep_data_pos (m : Nat) (pl : List Nat) (tr r : Nat) (buf : List Nat)
    (hr : r ≠ 0) (hb : buf ≠ []) :
    decodeStep m ⟨.ReadingData r, pl, tr⟩ buf =
      some (⟨if min r buf.length = r then .ReadingDataTerminator
             else .ReadingData (r - min r buf.length),
             pl ++ buf.take (min r buf.length), tr⟩,
            buf.drop (min r buf.length)) := by
  have hemp : buf.isEmpty = false := by
    cases buf
    · exact absurd rfl hb
    · rfl
  simp only [decodeStep, hemp, if_neg hr]
  simp

theorem decodeStep_term_error (m : Nat) (pl : List Nat) (tr : Nat) (buf : List Nat)
    (e : ChunkError) (r : List Nat) (he : SkipCRLF buf = (some e, r))
    (hne : e ≠ .NeedMoreData) :
    decodeStep m ⟨.ReadingDataTerminator, pl, tr⟩ buf = some (⟨.Failed e, pl, tr⟩, buf) := by
  simp only [decodeStep, he, if_neg hne]

theorem decodeStep_term_ok (m : Nat) (pl : List Nat) (tr : Nat) (buf rest : List Nat)
    (he : SkipCRLF buf = (none, rest)) :
    decodeStep m ⟨.ReadingDataTerminator, pl, tr⟩ buf = some (⟨.ReadingSize, pl, tr⟩, rest) := by
  simp only [decodeStep, he]

theorem decodeStep_trailer_error (m : Nat) (pl : List Nat) (tr : Nat) (buf : List Nat)
    (e : ChunkError) (he : readTrailerLine buf = .error e) (hne : e ≠ .NeedMoreData) :
    decodeStep m ⟨.ReadingTrailer, pl, tr⟩ buf = some (⟨.Failed e, pl, tr⟩, buf) := by
  simp only [decodeStep, he, if_neg hne]

theorem decodeStep_trailer_ok (m : Nat) (pl : List Nat) (tr : Nat) (buf : List Nat)
    (n : Nat) (rest : List Nat) (he : readTrailerLine buf = .ok (n, rest)) :
    decodeStep m ⟨.ReadingTrailer, pl, tr⟩ buf =
      if n = 0 then some (⟨.Done, pl, tr⟩, rest)
      else some (⟨.ReadingTrailer, pl, tr + 1⟩, rest) := by
  simp only [decodeStep, he]

/-- A successful transition that is not a partial data gulp commutes with
appending further bytes to the buffer. -/
theorem decodeStep_append (m : Nat) (d d2 : Decoder) (buf buf2 ext : List Nat)
    (h : decodeStep m d buf = some (d2, buf2))
    (hnp : ∀ r, d.state = DecState.ReadingData r → r = 0 ∨ r ≤ buf.length) :
    decodeStep m d (buf ++ ext) = some (d2, buf2 ++ ext) := by
  rcases d with ⟨st, pl, tr⟩
  cases st with
  | ReadingSize =>
    simp only [decodeStep] at h
    split at h
    · rename_i e heq
      split at h
      · exact absurd h (by simp)
      · rename_i hene
        simp only [Option.some.injEq, Prod.mk.injEq] at h
        obtain ⟨hd, hb⟩ := h
        subst hd
        subst hb
        exact decodeStep_size_error m pl tr (buf ++ ext) e
          (parseChunkSizeE_append_error m buf e ext heq hene) hene
    · rename_i v rest heq
      rw [decodeStep_size_ok m pl tr (buf ++ ext) v (rest ++ ext)
        (parseChunkSizeE_append_ok m buf v rest ext heq)]
      split at h <;> rename_i hv
      · rw [if_pos hv]
        simp only [Option.some.injEq, Prod.mk.injEq] at h
        obtain ⟨hd, hb⟩ := h
        subst hd
        subst hb
        rfl
      · rw [if_neg hv]
        simp only [Option.some.injEq, Prod.mk.injEq] at h
        obtain ⟨hd, hb⟩ := h
        subst hd
        subst hb
        rfl
  | ReadingData r =>
    have hr := hnp r rfl
    simp only [decodeStep] at h
    split at h
    · rename_i hr0
      simp only [Option.some.injEq, Prod.mk.injEq] at h
      obtain ⟨hd, hb⟩ := h
      subst hd
      subst hb
      subst hr0
      exact decodeStep_data_zero m pl tr (buf ++ ext)
    · rename_i hr0
      split at h
      · exact absurd h (by simp)
      · rename_i hne
        have hble : r ≤ buf.length := by
          rcases hr with h0 | hle
          · exact absurd h0 hr0
          · exact hle
        have hbne : buf ≠ [] := by
          cases buf
          · simp at hne
          · simp
        have hminr : min r buf.length = r := Nat.min_eq_left hble
        rw [hminr, if_pos rfl] at h
        simp only [Option.some.injEq, Prod.mk.injEq] at h
        obtain ⟨hd, hb⟩ := h
        subst hd
        subst hb
        have hble2 : r ≤ (buf ++ ext).length := by
          simp only [List.length_append]
          omega
        have hbne2 : buf ++ ext ≠ [] := by
          cases buf
          · exact absurd rfl hbne
          · simp
        rw [decodeStep_data_pos m pl tr r (buf ++ ext) hr0 hbne2,
          Nat.min_eq_left hble2, if_pos rfl,
          List.take_append_of_le_length hble, List.drop_append_of_le_length hble]
  | ReadingDataTerminator =>
    simp only [decodeStep] at h
    split at h
    · rename_i e r9 heq
      split at h
      · exact absurd h (by simp)
      · rename_i hene
        simp only [Option.some.injEq, Prod.mk.injEq] at h
        obtain ⟨hd, hb⟩ := h
        subst hd
        subst hb
        obtain ⟨c1, c2, t, hbuf, hrr, hcc, hee⟩ := SkipCRLF_error_inv buf e r9 heq hene
        subst hee
        subst hbuf
        apply decodeStep_term_error m pl tr _ _ (c1 :: c2 :: (t ++ ext)) ?_ hene
        rw [List.cons_append, List.cons_append, SkipCRLF, if_neg hcc]
    · rename_i rest heq
      simp only [Option.some.injEq, Prod.mk.injEq] at h
      obtain ⟨hd, hb⟩ := h
      subst hd
      subst hb
      have hbuf := SkipCRLF_ok_inv buf rest heq
      subst hbuf
      apply decodeStep_term_ok m pl tr _ (rest ++ ext)
      rw [List.cons_append, List.cons_append, SkipCRLF, if_pos ⟨rfl, rfl⟩]
  | ReadingTrailer =>
    simp only [decodeStep] at h
    split at h
    · rename_i e heq
      split at h
      · exact absurd h (by simp)
      · rename_i hene
        simp only [Option.some.injEq, Prod.mk.injEq] at h
        obtain ⟨hd, hb⟩ := h
        subst hd
        subst hb
        exact decodeStep_trailer_error m pl tr (buf ++ ext) e
          (readTrailerLine_append_error buf e ext heq hene) hene
    · rename_i n rest heq
      rw [decodeStep_trailer_ok m pl tr (buf ++ ext) n (rest ++ ext)
        (readTrailerLine_append_ok buf n rest ext heq)]
      split at h <;> rename_i hn
      · rw [if_pos hn]
        simp only [Option.some.injEq, Prod.mk.injEq] at h
        obtain ⟨hd, hb⟩ := h
        subst hd
        subst hb
        rfl
      · rw [if_neg hn]
        simp only [Option.some.injEq, Prod.mk.injEq] at h
        obtain ⟨hd, hb⟩ := h
        subst hd
        subst hb
        rfl
  | Done => simp [decodeStep] at h
  | Failed e => simp [decodeStep] at h

/-- A data gulp bounded by the buffer: the whole buffer is absorbed and the
decoder waits in ReadingData with the remainder of the chunk outstanding. -/
theorem decodeStep_data_absorb (m : Nat) (pl : List Nat) (tr r : Nat) (buf : List Nat)
    (hr : r ≠ 0) (hb : buf ≠ []) (hlen : buf.length < r) :
    decodeStep m ⟨.ReadingData r, pl, tr⟩ buf =
      some (⟨.ReadingData (r - buf.length), pl ++ buf, tr⟩, []) := by
  rw [decodeStep_data_pos m pl tr r buf hr hb]
  have hmin : min r buf.length = buf.length := Nat.min_eq_right (by omega)
  rw [hmin, if_neg (by omega), List.take_length, List.drop_length]

/-- Resuming a partial data gulp on the extension behaves exactly as one
big gulp on the concatenated buffer would. -/
theorem decodeStep_data_join (m : Nat) (pl : List Nat) (tr r : Nat) (buf ext : List Nat)
    (hr : r ≠ 0) (hb : buf ≠ []) (hlen : buf.length < r) (he : ext ≠ []) :
    decodeStep m ⟨.ReadingData (r - buf.length), pl ++ buf, tr⟩ ext =
      decodeStep m ⟨.ReadingData r, pl, tr⟩ (buf ++ ext) := by
  have hr2 : r - buf.length ≠ 0 := by omega
  have hbe : buf ++ ext ≠ [] := by
    cases buf
    · exact absurd rfl hb
    · simp
  rw [decodeStep_data_pos m (pl ++ buf) tr (r - buf.length) ext hr2 he,
    decodeStep_data_pos m pl tr r (buf ++ ext) hr hbe]
  have ht' : min r ((buf ++ ext).length) = buf.length + min (r - buf.length) ext.length := by
    simp only [List.length_append]
    omega
  rw [ht']
  generalize hs : min (r - buf.length) ext.length = s
  rw [List.take_append, List.drop_append]
  by_cases hcs : s = r - buf.length
  · rw [if_pos hcs, if_pos (by omega), List.append_assoc]
  · rw [if_neg hcs, if_neg (by omega), List.append_assoc]
    have harith : r - buf.length - s = r - (buf.length + s) := by omega
    rw [harith]

theorem feedDecoder_append_aux (m : Nat) :
    ∀ n d buf ext, decMeasure d buf ≤ n → ext ≠ [] →
      feedDecoder m d (buf ++ ext) =
        feedDecoder m (feedDecoder m d buf).1 ((feedDecoder m d buf).2 ++ ext) := by
  intro n
  induction n with
  | zero =>
    intro d buf ext hn hext
    have h0 : stateRank d.state = 0 := by
      have := stateRank_le d.state
      simp only [decMeasure] at hn
      omega
    rw [feedDecoder_of_none m d buf (stateRank_zero_step m d buf h0)]
  | succ n ih =>
    intro d buf ext hn hext
    cases hstep : decodeStep m d buf with
    | none =>
      rw [feedDecoder_of_none m d buf hstep]
    | some p =>
      obtain ⟨d2, buf2⟩ := p
      have hlt := decodeStep_measure m d d2 buf buf2 hstep
      rw [feedDecoder_step m d d2 buf buf2 hstep]
      by_cases hpartial : ∃ r, d.state = DecState.ReadingData r ∧ r ≠ 0 ∧ buf.length < r
      · obtain ⟨r, hst, hr0, hlen⟩ := hpartial
        rcases d with ⟨st, pl, tr⟩
        have hst2 : st = DecState.ReadingData r := hst
        subst hst2
        have hbne : buf ≠ [] := by
          intro hnil
          subst hnil
          simp only [decodeStep, if_neg hr0, List.isEmpty_nil, if_pos] at hstep
          exact absurd hstep (by simp)
        rw [decodeStep_data_absorb m pl tr r buf hr0 hbne hlen] at hstep
        simp only [Option.some.injEq, Prod.mk.injEq] at hstep
        obtain ⟨hd2, hb2⟩ := hstep
        subst hd2
        subst hb2
        have hstop : decodeStep m ⟨.ReadingData (r - buf.length), pl ++ buf, tr⟩
            ([] : List Nat) = none := by
          simp only [decodeStep, if_neg (show ¬r - buf.length = 0 by omega),
            List.isEmpty_nil, if_pos]
        rw [feedDecoder_of_none m _ _ hstop, List.nil_append]
        have hjoin := decodeStep_data_join m pl tr r buf ext hr0 hbne hlen hext
        have hstep2 := decodeStep_data_pos m (pl ++ buf) tr (r - buf.length) ext
          (by omega) hext
        cases hs2 : decodeStep m ⟨.ReadingData (r - buf.length), pl ++ buf, tr⟩ ext with
        | none =>
          rw [hstep2] at hs2
          exact absurd hs2 (by simp)
        | some q =>
          obtain ⟨d3, buf3⟩ := q
          rw [feedDecoder_step m _ d3 ext buf3 hs2]
          have hj2 : decodeStep m ⟨.ReadingData r, pl, tr⟩ (buf ++ ext) = some (d3, buf3) := by
            rw [← hjoin]
            exact hs2
          rw [feedDecoder_step m _ d3 (buf ++ ext) buf3 hj2]
      · have hnp : ∀ r, d.state = DecState.ReadingData r → r = 0 ∨ r ≤ buf.length := by
          intro r hst
          by_cases h0 : r = 0
          · exact Or.inl h0
          · right
            by_contra hgt
            exact hpartial ⟨r, hst, h0, by omega⟩
        have happ := decodeStep_append m d d2 buf buf2 ext hstep hnp
        rw [feedDecoder_step m d d2 (buf ++ ext) (buf2 ++ ext) happ]
        exact ih d2 buf2 ext (by omega) hext

/-- Feeding a byte stream in two pieces gives the same final configuration
as feeding it whole: the first feed runs until NeedMoreData or a terminal
state, and the second resumes from that very state with the unconsumed
bytes followed by the extension. -/
theorem feedDecoder_append (m : Nat) (d : Decoder) (buf ext : List Nat) :
    feedDecoder m d (buf ++ ext) =
      feedDecoder m (feedDecoder m d buf).1 ((feedDecoder m d buf).2 ++ ext) := by
  by_cases hext : ext = []
  · subst hext
    simp only [List.append_nil]
    rw [feedDecoder_of_none m _ _ (feedDecoder_stuck m d buf)]
  · exact feedDecoder_append_aux m (decMeasure d buf) d buf ext (le_refl _) hext

/-- C3: for every complete well-formed chunked byte stream and every byte
position at which the stream is split into two successive feedings, running
the decoder on the split input (resuming from the state and unconsumed
bytes the first feed stopped at) produces exactly the same decoded payload,
trailer count and final state as running it on the whole stream at once. -/
theorem decoder_split_resume (m : Nat) (s : List Nat) (i : Nat)
    (hdone : (ChunkedBodyDecoder m s).1.state = DecState.Done) :
    feedDecoder m (feedDecoder m initDecoder (s.take i)).1
        ((feedDecoder m initDecoder (s.take i)).2 ++ s.drop i) =
      ChunkedBodyDecoder m s := by
  unfold ChunkedBodyDecoder
  conv_rhs => rw [← List.take_append_drop i s]
  exact (feedDecoder_append m initDecoder (s.take i) (s.drop i)).symm

/-- The byte stream "5 CR LF h e l l o CR LF 0 CR LF CR LF". -/
def helloChunkedStream : List Nat :=
  [53, 13, 10, 104, 101, 108, 108, 111, 13, 10, 48, 13, 10, 13, 10]

/-- C4: running the decoder from its initial ReadingSize state on the
stream "5 CRLF hello CRLF 0 CRLF CRLF" yields exactly the payload bytes of
"hello" and ends in the terminal Done state with zero trailer headers
consumed and no error. -/
theorem decoder_hello_stream (m : Nat) (h5 : 5 ≤ m) :
    ChunkedBodyDecoder m helloChunkedStream =
      (⟨DecState.Done, [104, 101, 108, 108, 111], 0⟩, []) := by
  have hp1 : parseChunkSizeE m [53, 13, 10, 104, 101, 108, 108, 111, 13, 10, 48, 13, 10, 13, 10] =
      .ok (5, [104, 101, 108, 108, 111, 13, 10, 48, 13, 10, 13, 10]) :=
    parse_line m 5 [104, 101, 108, 108, 111, 13, 10, 48, 13, 10, 13, 10] (by omega)
  have hp2 : parseChunkSizeE m [48, 13, 10, 13, 10] = .ok (0, [13, 10]) :=
    parse_line m 0 [13, 10] (by omega)
  have s1 : decodeStep m ⟨.ReadingSize, [], 0⟩
      [53, 13, 10, 104, 101, 108, 108, 111, 13, 10, 48, 13, 10, 13, 10] =
      some (⟨.ReadingData 5, [], 0⟩, [104, 101, 108, 108, 111, 13, 10, 48, 13, 10, 13, 10]) := by
    rw [decodeStep_size_ok m [] 0 _ 5 _ hp1]
    simp
  have s2 : decodeStep m ⟨.ReadingData 5, [], 0⟩
      [104, 101, 108, 108, 111, 13, 10, 48, 13, 10, 13, 10] =
      some (⟨.ReadingDataTerminator, [104, 101, 108, 108, 111], 0⟩,
        [13, 10, 48, 13, 10, 13, 10]) := by rfl
  have s3 : decodeStep m ⟨.ReadingDataTerminator, [104, 101, 108, 108, 111], 0⟩
      [13, 10, 48, 13, 10, 13, 10] =
      some (⟨.ReadingSize, [104, 101, 108, 108, 111], 0⟩, [48, 13, 10, 13, 10]) := by rfl
  have s4 : decodeStep m ⟨.ReadingSize, [104, 101, 108, 108, 111], 0⟩ [48, 13, 10, 13, 10] =
      some (⟨.ReadingTrailer, [104, 101, 108, 108, 111], 0⟩, [13, 10]) := by
    rw [decodeStep_size_ok m [104, 101, 108, 108, 111] 0 _ 0 _ hp2]
    simp
  have s5 : decodeStep m ⟨.ReadingTrailer, [104, 101, 108, 108, 111], 0⟩ [13, 10] =
      some (⟨.Done, [104, 101, 108, 108, 111], 0⟩, []) := by rfl
  have s6 : decodeStep m ⟨.Done, [104, 101, 108, 108, 111], 0⟩ ([] : List Nat) = none := by rfl
  unfold ChunkedBodyDecoder initDecoder helloChunkedStream
  rw [feedDecoder_step m _ _ _ _ s1, feedDecoder_step m _ _ _ _ s2,
    feedDecoder_step m _ _ _ _ s3, feedDecoder_step m _ _ _ _ s4,
    feedDecoder_step m _ _ _ _ s5, feedDecoder_of_none m _ _ s6]

theorem decoder_hello_stream_witness :
    ChunkedBodyDecoder 1024 helloChunkedStream =
      (⟨DecState.Done, [104, 101, 108, 108, 111], 0⟩, []) :=
  decoder_hello_stream 1024 (by omega)

theorem decoder_split_resume_witness :
    (ChunkedBodyDecoder 256 helloChunkedStream).1.state = DecState.Done ∧
      feedDecoder 256 (feedDecoder 256 initDecoder (helloChunkedStream.take 4)).1
          ((feedDecoder 256 initDecoder (helloChunkedStream.take 4)).2 ++
            helloChunkedStream.drop 4) =
        ChunkedBodyDecoder 256 helloChunkedStream :=
  ⟨by decide, decoder_split_resume 256 helloChunkedStream 4 (by decide)⟩

/-- C8: a SIGTERM delivered while Spin runs makes waitSignal return a
non-nil error and Spin immediately close the engine; a SIGHUP or SIGINT
makes waitSignal return nil and Spin perform a graceful shutdown, invoking
Engine.Shutdown under a context whose timeout is the configured
ExitWaitTimeout. -/
theorem spin_signal_behavior (opts : Options) (closeErr shutdownErr : Option HError) :
    (waitSignal (.signalArrived .SIGTERM) ≠ none ∧
      (Spin opts (.signalArrived .SIGTERM) closeErr shutdownErr).calls = [.close]) ∧
    (∀ s, s = GoSignal.SIGHUP ∨ s = GoSignal.SIGINT →
      waitSignal (.signalArrived s) = none ∧
      (Spin opts (.signalArrived s) closeErr shutdownErr).calls =
        [.shutdown opts.ExitWaitTimeout]) := by
  constructor
  · constructor
    · simp [waitSignal]
    · rfl
  · intro s hs
    rcases hs with h | h <;> subst h <;> exact ⟨rfl, rfl⟩

theorem spin_signal_behavior_witness :
    waitSignal (.signalArrived .SIGHUP) = none ∧
      (Spin ⟨5⟩ (.signalArrived .SIGHUP) none none).calls = [EngineCall.shutdown 5] :=
  (spin_signal_behavior ⟨5⟩ none none).2 GoSignal.SIGHUP (Or.inl rfl)

/-- C9: if h.Run() returns a non-nil error before any signal arrives,
waitSignal returns that very error and Spin takes the immediate-close path,
exactly as it does for SIGTERM — graceful shutdown is never entered. -/
theorem spin_run_error (opts : Options) (e : HError) (closeErr shutdownErr : Option HError) :
    waitSignal (.runReturned (some e)) = some e ∧
    (Spin opts (.runReturned (some e)) closeErr shutdownErr).calls = [.close] ∧
    (Spin opts (.runReturned (some e)) closeErr shutdownErr).calls =
      (Spin opts (.signalArrived .SIGTERM) closeErr shutdownErr).calls :=
  ⟨rfl, rfl, rfl⟩

/-- C10: whenever waitSignal returns nil, Spin calls Engine.Shutdown with
the timeout GetOptions().ExitWaitTimeout, logs a Shutdown error instead of
propagating it, and its observable engine calls do not depend on whether
Shutdown errs — Spin always returns normally. -/
theorem spin_graceful_shutdown (opts : Options) (ev : WaitEvent) (closeErr : Option HError)
    (hnil : waitSignal ev = none) :
    (∀ shutdownErr, (Spin opts ev closeErr shutdownErr).calls =
      [EngineCall.shutdown opts.ExitWaitTimeout]) ∧
    (∀ e, LogEntry.errorLog ("HERTZ: Shutdown error=" ++ e) ∈
      (Spin opts ev closeErr (some e)).logs) ∧
    (∀ e1 e2, (Spin opts ev closeErr e1).calls = (Spin opts ev closeErr e2).calls) := by
  refine ⟨fun sErr => ?_, fun e => ?_, fun e1 e2 => ?_⟩
  · unfold Spin
    rw [hnil]
  · unfold Spin
    rw [hnil]
    simp
  · unfold Spin
    rw [hnil]

theorem spin_graceful_shutdown_witness :
    (Spin ⟨1000000000⟩ (.signalArrived .SIGINT) none (some "boom")).calls =
        [EngineCall.shutdown 1000000000] ∧
      LogEntry.errorLog ("HERTZ: Shutdown error=" ++ "boom") ∈
        (Spin ⟨1000000000⟩ (.signalArrived .SIGINT) none (some "boom")).logs :=
  ⟨(spin_graceful_shutdown ⟨1000000000⟩ (.signalArrived .SIGINT) none rfl).1 (some "boom"),
   (spin_graceful_shutdown ⟨1000000000⟩ (.signalArrived .SIGINT) none rfl).2.1 "boom"⟩

end Hertz
